import Mathlib

/-!
Shallow embedding of `src/statistics.rs` from the `gladius` repository:
a real-time typing-performance engine (event ingestion, running counters,
interval-based measurement sampling, session finalization).

Modelling conventions:
* Rust `f64` timestamps/durations are embedded as exact rationals `ℚ`.
  The claims under study concern control flow and exact `≥` comparisons,
  not floating-point rounding.
* Rust `HashMap<K, usize>` entry-update (`entry(k).or_insert(0) += 1`) is
  embedded as an association list with first-match update semantics.
* The metric collaborators (`Wpm`, `Ipm`, `Accuracy`, `Consistency` and the
  types `State`, `Configuration`, `Word`) live outside the provided source
  slice; they are modelled from the spec (doc comments note this), as
  black-box pure functions with the documented signatures.
* Fallible reads (`measurements.last().unwrap()` in `finalize`) are embedded
  with `Option`: `finalize` returns `none` exactly where the Rust would panic.
-/

set_option autoImplicit false

namespace Gladius

/-- Seconds since session start (Rust `Timestamp = f64`, embedded as `ℚ`). -/
abbrev Timestamp := ℚ

/-- Rust `web_time::Duration`, embedded as its value in seconds (`ℚ`);
`Duration::as_secs_f64` is then the identity. -/
abbrev Duration := ℚ

/-- Modelled from the spec: the word type used as key of `word_errors`
(word-level attribution is a collaborator, not exercised in this slice). -/
abbrev Word := String

/-- Modelled from the spec: prior classification carried by
`CharacterResult::Deleted` — was the deleted character previously
Correct, Corrected or Wrong. -/
inductive State where
  | Correct
  | Corrected
  | Wrong
deriving DecidableEq

/-- Classification of one keystroke (spec glossary `Outcome/CharacterResult`). -/
inductive CharacterResult where
  | Correct
  | Wrong
  | Corrected
  | Deleted (state : State)
deriving DecidableEq

/-- Words-per-minute metric bundle (raw / actual), a collaborator type. -/
structure Wpm where
  raw : ℚ
  actual : ℚ
deriving DecidableEq

/-- Modelled from the spec: `f_wpm(total_chars, errors, corrections, minutes)`
is a black-box pure function of its arguments whose derivation is out of
scope; it must define a degenerate (zero) value at `minutes = 0`. -/
def Wpm.calculate (total_chars errors corrections : ℕ) (minutes : ℚ) : Wpm :=
  if minutes = 0 then ⟨0, 0⟩
  else ⟨(total_chars : ℚ) / 5 / minutes,
        ((total_chars : ℚ) - (errors : ℚ) - (corrections : ℚ)) / 5 / minutes⟩

/-- Inputs-per-minute metric bundle (raw / actual), a collaborator type. -/
structure Ipm where
  raw : ℚ
  actual : ℚ
deriving DecidableEq

/-- Modelled from the spec: `f_ipm(adds, total_chars, minutes)` is a black-box
pure function, degenerate (zero) at `minutes = 0`. -/
def Ipm.calculate (adds total_chars : ℕ) (minutes : ℚ) : Ipm :=
  if minutes = 0 then ⟨0, 0⟩
  else ⟨(total_chars : ℚ) / minutes, (adds : ℚ) / minutes⟩

/-- Accuracy metric bundle (raw / actual), a collaborator type. -/
structure Accuracy where
  raw : ℚ
  actual : ℚ
deriving DecidableEq

/-- Modelled from the spec: `f_accuracy(input_len, errors, corrections)` is a
black-box pure function of counts. -/
def Accuracy.calculate (input_len errors corrections : ℕ) : Accuracy :=
  if input_len = 0 then ⟨100, 100⟩
  else ⟨100 * ((input_len : ℚ) - (errors : ℚ)) / (input_len : ℚ),
        100 * ((input_len : ℚ) - (errors : ℚ) - (corrections : ℚ)) / (input_len : ℚ)⟩

/-- Mean of a list of rationals (`0` on the empty list). -/
def meanQ (l : List ℚ) : ℚ :=
  if l.length = 0 then 0 else l.sum / (l.length : ℚ)

/-- Population variance of a list of rationals (`0` on the empty list). -/
def varQ (l : List ℚ) : ℚ :=
  if l.length = 0 then 0
  else (l.map (fun x => (x - meanQ l) ^ 2)).sum / (l.length : ℚ)

/-- Consistency metric bundle (a percentage and a deviation statistic),
a collaborator type. `stddev` is represented by the variance, which is
expressible over `ℚ`. -/
structure Consistency where
  percent : ℚ
  stddev : ℚ
deriving DecidableEq

/-- Modelled from the spec: `f_consistency(ordered wpm samples)` is a
black-box pure function of the ordered wpm samples only; its numeric
derivation is out of scope and modelled as mean and variance of the
`actual` rates. -/
def Consistency.calculate (wpms : List Wpm) : Consistency :=
  let xs := wpms.map Wpm.actual
  ⟨meanQ xs, varQ xs⟩

/-- Modelled from the spec: the configuration source supplies the sampling
interval `measurement_interval_seconds` (seconds). -/
structure Configuration where
  measurement_interval_seconds : ℚ
deriving DecidableEq

/-- Individual keystroke event (`Input` in `statistics.rs`). -/
structure Input where
  timestamp : Timestamp
  char : Char
  result : CharacterResult
deriving DecidableEq

/-- Point-in-time snapshot of all typing performance metrics
(`Measurement` in `statistics.rs`). -/
structure Measurement where
  timestamp : Timestamp
  wpm : Wpm
  ipm : Ipm
  accuracy : Accuracy
  consistency : Consistency
deriving DecidableEq

/-- Rust `Measurement::new`: computes all metrics from current session data;
consistency is computed from all previous measurements' wpm values plus the
current one, in order. -/
def Measurement.new (timestamp : Timestamp) (input_len : ℕ)
    (previous_measurements : List Measurement) (input_history : List Input)
    (adds errors corrections : ℕ) : Measurement :=
  let minutes := timestamp / 60
  let wpm := Wpm.calculate input_history.length errors corrections minutes
  let ipm := Ipm.calculate adds input_history.length minutes
  let accuracy := Accuracy.calculate input_len errors corrections
  let all_wpm_measurements :=
    previous_measurements.map Measurement.wpm ++ [wpm]
  let consistency := Consistency.calculate all_wpm_measurements
  ⟨timestamp, wpm, ipm, accuracy, consistency⟩

/-- Entry update on the association-list embedding of `HashMap<K, usize>`:
`map.entry(k).or_insert(0) += 1`. -/
def bumpEntry (m : List (Char × ℕ)) (c : Char) : List (Char × ℕ) :=
  match m with
  | [] => [(c, 1)]
  | (k, v) :: rest => if k = c then (k, v + 1) :: rest else (k, v) :: bumpEntry rest c

/-- Count stored for a key in the association-list map (`0` when absent). -/
def lookupCount (m : List (Char × ℕ)) (c : Char) : ℕ :=
  match m with
  | [] => 0
  | (k, v) :: rest => if k = c then v else lookupCount rest c

/-- Sum of all values stored in the association-list map. -/
def sumValues (m : List (Char × ℕ)) : ℕ :=
  (m.map Prod.snd).sum

/-- Counters for all typing events and errors (`CounterData`). -/
structure CounterData where
  char_errors : List (Char × ℕ)
  word_errors : List (Word × ℕ)
  adds : ℕ
  deletes : ℕ
  errors : ℕ
  corrects : ℕ
  corrections : ℕ
  wrong_deletes : ℕ
deriving DecidableEq

/-- Rust `CounterData::default()`: empty maps, all counters zero. -/
def CounterData.default : CounterData :=
  ⟨[], [], 0, 0, 0, 0, 0, 0⟩

/-- Final statistics of a finished session (`Statistics`). -/
structure Statistics where
  wpm : Wpm
  ipm : Ipm
  accuracy : Accuracy
  consistency : Consistency
  duration : Duration
  measurements : List Measurement
  input_history : List Input
  counters : CounterData
  input_length : ℕ
  missing_characters : ℕ
deriving DecidableEq

/-- Real-time statistics accumulator (`TempStatistics`). -/
structure TempStatistics where
  measurements : List Measurement
  input_history : List Input
  counters : CounterData
  last_measurement : Option Timestamp
deriving DecidableEq

/-- Rust `TempStatistics::default()`: empty history, no measurements, zeroed
counters, no last-measurement timestamp. -/
def TempStatistics.default : TempStatistics :=
  ⟨[], [], CounterData.default, none⟩

/-- Rust `TempStatistics::should_take_measurement`: interval-elapsed check against
the last measurement timestamp (or against session start when none). -/
def TempStatistics.should_take_measurement (s : TempStatistics)
    (current_timestamp : Timestamp) (interval_seconds : ℚ) : Bool :=
  match s.last_measurement with
  | some last_timestamp => decide (current_timestamp - last_timestamp ≥ interval_seconds)
  | none => decide (current_timestamp ≥ interval_seconds)

/-- Rust `TempStatistics::take_measurement`: append a new measurement and record
its timestamp. -/
def TempStatistics.take_measurement (s : TempStatistics)
    (timestamp : Timestamp) (input_len : ℕ) : TempStatistics :=
  let measurement := Measurement.new timestamp input_len s.measurements
    s.input_history s.counters.adds s.counters.errors s.counters.corrections
  { s with
    measurements := s.measurements ++ [measurement],
    last_measurement := some timestamp }

/-- Rust `TempStatistics::update_from_result`: update the counters implied by the
outcome, then append the event to the input history. -/
def TempStatistics.update_from_result (s : TempStatistics) (char : Char)
    (result : CharacterResult) (timestamp : Timestamp) : TempStatistics :=
  let counters := s.counters
  let counters :=
    match result with
    | .Deleted state =>
        { counters with
          deletes := counters.deletes + 1,
          wrong_deletes :=
            if state = State.Correct ∨ state = State.Corrected then
              counters.wrong_deletes + 1
            else counters.wrong_deletes }
    | .Wrong =>
        { counters with
          errors := counters.errors + 1,
          adds := counters.adds + 1,
          char_errors := bumpEntry counters.char_errors char }
    | .Corrected =>
        { counters with
          corrections := counters.corrections + 1,
          adds := counters.adds + 1 }
    | .Correct =>
        { counters with
          corrects := counters.corrects + 1,
          adds := counters.adds + 1 }
  { s with
    counters := counters,
    input_history := s.input_history ++ [⟨timestamp, char, result⟩] }

/-- Rust `TempStatistics::update`: record the event, then take a measurement when
the sampling interval has elapsed. -/
def TempStatistics.update (s : TempStatistics) (char : Char)
    (result : CharacterResult) (input_len : ℕ) (elapsed : Duration)
    (config : Configuration) : TempStatistics :=
  let timestamp : Timestamp := elapsed
  let s := s.update_from_result char result timestamp
  if s.should_take_measurement timestamp config.measurement_interval_seconds then
    s.take_measurement timestamp input_len
  else s

/-- Rust `TempStatistics::finalize`: force one final measurement, compute
`missing_characters` by saturating subtraction, and assemble the summary from
the last measurement. The Rust `measurements.last().copied().unwrap()` is
embedded as `getLast?`; `none` marks exactly the states where it would panic. -/
def TempStatistics.finalize (s : TempStatistics) (duration : Duration)
    (text_length current_position : ℕ) : Option Statistics :=
  let total_time : Timestamp := duration
  let s := s.take_measurement total_time current_position
  let missing_characters := text_length - current_position
  match s.measurements.getLast? with
  | none => none
  | some m =>
      some
        { wpm := m.wpm, ipm := m.ipm, accuracy := m.accuracy,
          consistency := m.consistency, duration := duration,
          measurements := s.measurements, input_history := s.input_history,
          counters := s.counters, input_length := text_length,
          missing_characters := missing_characters }

/-- One call to `TempStatistics::update`, as supplied by the input-processing
collaborator. -/
structure UpdateCall where
  char : Char
  result : CharacterResult
  input_len : ℕ
  elapsed : Duration
  config : Configuration
deriving DecidableEq

/-- Fold one update call into the accumulator. -/
def stepCall (s : TempStatistics) (c : UpdateCall) : TempStatistics :=
  s.update c.char c.result c.input_len c.elapsed c.config

/-- Run a sequence of update calls from the default (session-start) state. -/
def runUpdates (calls : List UpdateCall) : TempStatistics :=
  calls.foldl stepCall TempStatistics.default

/-- The counter equation of the spec:
`adds = errors + corrections + corrects`. -/
def AddsInv (s : TempStatistics) : Prop :=
  s.counters.adds = s.counters.errors + s.counters.corrections + s.counters.corrects

/-- Coherence of the cached `last_measurement` timestamp with the measurement
sequence: `none` means no measurement was taken yet, `some t` means the last
measurement in the sequence has timestamp `t`. -/
def Coh (s : TempStatistics) : Prop :=
  (s.last_measurement = none → s.measurements = []) ∧
  (∀ t, s.last_measurement = some t →
    ∃ m, s.measurements.getLast? = some m ∧ m.timestamp = t)

/-- Consecutive measurements in the list are at least `interval` seconds
apart. -/
def Spaced (interval : ℚ) (l : List Measurement) : Prop :=
  ∀ i, (h : i + 1 < l.length) →
    interval ≤ (l.get ⟨i + 1, h⟩).timestamp - (l.get ⟨i, Nat.lt_of_succ_lt h⟩).timestamp

/-- All measurement timestamps, and the cached last-measurement timestamp,
are bounded by `D`. -/
def TsBound (D : ℚ) (s : TempStatistics) : Prop :=
  (∀ m ∈ s.measurements, m.timestamp ≤ D) ∧
  (∀ t, s.last_measurement = some t → t ≤ D)

end Gladius

namespace Gladius

/-! ### Helper lemmas about single steps -/

lemma update_from_result_measurements (s : TempStatistics) (char : Char)
    (result : CharacterResult) (ts : Timestamp) :
    (s.update_from_result char result ts).measurements = s.measurements := rfl

lemma update_from_result_last (s : TempStatistics) (char : Char)
    (result : CharacterResult) (ts : Timestamp) :
    (s.update_from_result char result ts).last_measurement = s.last_measurement := rfl

lemma update_from_result_history (s : TempStatistics) (char : Char)
    (result : CharacterResult) (ts : Timestamp) :
    (s.update_from_result char result ts).input_history
      = s.input_history ++ [⟨ts, char, result⟩] := rfl

lemma take_measurement_counters (s : TempStatistics) (ts : Timestamp) (il : ℕ) :
    (s.take_measurement ts il).counters = s.counters := rfl

lemma take_measurement_history (s : TempStatistics) (ts : Timestamp) (il : ℕ) :
    (s.take_measurement ts il).input_history = s.input_history := rfl

lemma update_counters (s : TempStatistics) (char : Char) (result : CharacterResult)
    (il : ℕ) (e : Duration) (cfg : Configuration) :
    (s.update char result il e cfg).counters
      = (s.update_from_result char result e).counters := by
  simp only [TempStatistics.update]
  split <;> rfl

lemma update_history (s : TempStatistics) (char : Char) (result : CharacterResult)
    (il : ℕ) (e : Duration) (cfg : Configuration) :
    (s.update char result il e cfg).input_history
      = s.input_history ++ [⟨e, char, result⟩] := by
  simp only [TempStatistics.update]
  split <;> rfl

lemma counters_correct (s : TempStatistics) (char : Char) (ts : Timestamp) :
    (s.update_from_result char .Correct ts).counters
      = { s.counters with
          corrects := s.counters.corrects + 1
          adds := s.counters.adds + 1 } := rfl

lemma counters_wrong (s : TempStatistics) (char : Char) (ts : Timestamp) :
    (s.update_from_result char .Wrong ts).counters
      = { s.counters with
          errors := s.counters.errors + 1
          adds := s.counters.adds + 1
          char_errors := bumpEntry s.counters.char_errors char } := rfl

lemma counters_corrected (s : TempStatistics) (char : Char) (ts : Timestamp) :
    (s.update_from_result char .Corrected ts).counters
      = { s.counters with
          corrections := s.counters.corrections + 1
          adds := s.counters.adds + 1 } := rfl

lemma counters_deleted (s : TempStatistics) (char : Char) (st : State) (ts : Timestamp) :
    (s.update_from_result char (.Deleted st) ts).counters
      = { s.counters with
          deletes := s.counters.deletes + 1
          wrong_deletes :=
            if st = State.Correct ∨ st = State.Corrected then
              s.counters.wrong_deletes + 1
            else s.counters.wrong_deletes } := rfl

lemma addsInv_step (s : TempStatistics) (c : UpdateCall) (h : AddsInv s) :
    AddsInv (stepCall s c) := by
  unfold AddsInv at h ⊢
  unfold stepCall
  rw [update_counters]
  cases c.result with
  | Correct => rw [counters_correct]; simp; omega
  | Wrong => rw [counters_wrong]; simp; omega
  | Corrected => rw [counters_corrected]; simp; omega
  | Deleted st => rw [counters_deleted]; simpa using h

lemma addsInv_foldl (calls : List UpdateCall) :
    ∀ s : TempStatistics, AddsInv s → AddsInv (calls.foldl stepCall s) := by
  induction calls with
  | nil => intro s h; exact h
  | cons c cs ih => intro s h; exact ih _ (addsInv_step s c h)

/-! ### Lemmas about the association-list counter map -/

lemma sumValues_bumpEntry (m : List (Char × ℕ)) (c : Char) :
    sumValues (bumpEntry m c) = sumValues m + 1 := by
  induction m with
  | nil => rfl
  | cons p rest ih =>
      obtain ⟨k, v⟩ := p
      unfold bumpEntry
      by_cases hk : k = c
      · simp [hk, sumValues]
        omega
      · simp [hk, sumValues] at ih ⊢
        omega

lemma lookupCount_bumpEntry (m : List (Char × ℕ)) (c : Char) :
    lookupCount (bumpEntry m c) c = lookupCount m c + 1 := by
  induction m with
  | nil => simp [bumpEntry, lookupCount]
  | cons p rest ih =>
      obtain ⟨k, v⟩ := p
      unfold bumpEntry
      by_cases hk : k = c
      · simp [hk, lookupCount]
      · simp [hk, lookupCount, ih]

/-- The per-update invariant of claim C10, as a single predicate. -/
lemma errSum_step (s : TempStatistics) (c : UpdateCall)
    (h : s.counters.errors = sumValues s.counters.char_errors) :
    (stepCall s c).counters.errors = sumValues (stepCall s c).counters.char_errors := by
  unfold stepCall
  rw [update_counters]
  cases c.result with
  | Correct => rw [counters_correct]; simpa using h
  | Wrong => rw [counters_wrong]; simp [sumValues_bumpEntry]; omega
  | Corrected => rw [counters_corrected]; simpa using h
  | Deleted st => rw [counters_deleted]; simpa using h

lemma errSum_foldl (calls : List UpdateCall) :
    ∀ s : TempStatistics,
      s.counters.errors = sumValues s.counters.char_errors →
      (calls.foldl stepCall s).counters.errors
        = sumValues (calls.foldl stepCall s).counters.char_errors := by
  induction calls with
  | nil => intro s h; exact h
  | cons c cs ih => intro s h; exact ih _ (errSum_step s c h)

/-! ### Claim theorems: counter invariants -/

/-- C2: for every sequence of update calls starting from the default state,
`counters.adds = counters.errors + counters.corrections + counters.corrects`
holds after every update. -/
theorem adds_equation_invariant (calls : List UpdateCall) :
    (runUpdates calls).counters.adds
      = (runUpdates calls).counters.errors
        + (runUpdates calls).counters.corrections
        + (runUpdates calls).counters.corrects :=
  addsInv_foldl calls TempStatistics.default rfl

/-- C6: processing an event with outcome `Deleted(prior)` increments
`deletes` by one, increments `wrong_deletes` by one exactly when the prior
state is Correct or Corrected, and leaves `adds`, `errors`, `corrects`,
`corrections` and `char_errors` unchanged. -/
theorem deleted_outcome_updates_counters (s : TempStatistics) (char : Char)
    (prior : State) (ts : Timestamp) :
    (s.update_from_result char (.Deleted prior) ts).counters.deletes
        = s.counters.deletes + 1 ∧
    ((s.update_from_result char (.Deleted prior) ts).counters.wrong_deletes
        = s.counters.wrong_deletes + 1
      ↔ (prior = State.Correct ∨ prior = State.Corrected)) ∧
    (s.update_from_result char (.Deleted prior) ts).counters.adds = s.counters.adds ∧
    (s.update_from_result char (.Deleted prior) ts).counters.errors = s.counters.errors ∧
    (s.update_from_result char (.Deleted prior) ts).counters.corrects = s.counters.corrects ∧
    (s.update_from_result char (.Deleted prior) ts).counters.corrections
        = s.counters.corrections ∧
    (s.update_from_result char (.Deleted prior) ts).counters.char_errors
        = s.counters.char_errors := by
  rw [counters_deleted]
  cases prior <;> simp

/-- C7: after `N` update calls from the default state, `input_history` has
length exactly `N`: every event, deletions included, is appended exactly
once. -/
theorem history_records_every_event (calls : List UpdateCall) :
    (runUpdates calls).input_history.length = calls.length := by
  suffices h : ∀ s : TempStatistics,
      (calls.foldl stepCall s).input_history.length
        = s.input_history.length + calls.length by
    simpa [runUpdates, TempStatistics.default] using h TempStatistics.default
  induction calls with
  | nil => intro s; simp
  | cons c cs ih =>
      intro s
      have hstep : (stepCall s c).input_history.length = s.input_history.length + 1 := by
        unfold stepCall
        rw [update_history]
        simp
      simp only [List.foldl_cons, ih (stepCall s c), hstep, List.length_cons]
      omega

/-- C10: after every update sequence from the default state,
`counters.errors` equals the sum of the per-character counts in
`counters.char_errors`; only a `Wrong` outcome touches either, and it
increments the errors counter and that character's entry by exactly one. -/
theorem errors_match_char_error_map (calls : List UpdateCall) :
    (runUpdates calls).counters.errors
        = sumValues (runUpdates calls).counters.char_errors ∧
    (∀ (s : TempStatistics) (char : Char) (ts : Timestamp),
      (s.update_from_result char .Correct ts).counters.char_errors
          = s.counters.char_errors ∧
      (s.update_from_result char .Correct ts).counters.errors = s.counters.errors) ∧
    (∀ (s : TempStatistics) (char : Char) (ts : Timestamp),
      (s.update_from_result char .Corrected ts).counters.char_errors
          = s.counters.char_errors ∧
      (s.update_from_result char .Corrected ts).counters.errors = s.counters.errors) ∧
    (∀ (s : TempStatistics) (char : Char) (st : State) (ts : Timestamp),
      (s.update_from_result char (.Deleted st) ts).counters.char_errors
          = s.counters.char_errors ∧
      (s.update_from_result char (.Deleted st) ts).counters.errors
          = s.counters.errors) ∧
    (∀ (s : TempStatistics) (char : Char) (ts : Timestamp),
      (s.update_from_result char .Wrong ts).counters.errors
          = s.counters.errors + 1 ∧
      lookupCount (s.update_from_result char .Wrong ts).counters.char_errors char
          = lookupCount s.counters.char_errors char + 1) := by
  refine ⟨errSum_foldl calls TempStatistics.default rfl, ?_, ?_, ?_, ?_⟩
  · intro s char ts; rw [counters_correct]; exact ⟨rfl, rfl⟩
  · intro s char ts; rw [counters_corrected]; exact ⟨rfl, rfl⟩
  · intro s char st ts; rw [counters_deleted]; exact ⟨rfl, rfl⟩
  · intro s char ts
    rw [counters_wrong]
    exact ⟨rfl, lookupCount_bumpEntry s.counters.char_errors char⟩

/-! ### Finalization -/

lemma finalize_eq_some (s : TempStatistics) (d : Duration) (tl cp : ℕ) :
    s.finalize d tl cp = some
      { wpm := (Measurement.new d cp s.measurements s.input_history
          s.counters.adds s.counters.errors s.counters.corrections).wpm
        ipm := (Measurement.new d cp s.measurements s.input_history
          s.counters.adds s.counters.errors s.counters.corrections).ipm
        accuracy := (Measurement.new d cp s.measurements s.input_history
          s.counters.adds s.counters.errors s.counters.corrections).accuracy
        consistency := (Measurement.new d cp s.measurements s.input_history
          s.counters.adds s.counters.errors s.counters.corrections).consistency
        duration := d
        measurements := s.measurements ++ [Measurement.new d cp s.measurements
          s.input_history s.counters.adds s.counters.errors s.counters.corrections]
        input_history := s.input_history
        counters := s.counters
        input_length := tl
        missing_characters := tl - cp } := by
  simp only [TempStatistics.finalize, TempStatistics.take_measurement]
  rw [List.getLast?_concat]

/-- C3: `finalize` unconditionally takes exactly one additional measurement,
at timestamp equal to the given duration and with `input_len` equal to
`current_position`; the returned measurement sequence is nonempty and
reading its last element never fails (the result is always `some`). -/
theorem finalize_forces_final_measurement (s : TempStatistics) (d : Duration)
    (text_length current_position : ℕ) :
    ∃ stats, s.finalize d text_length current_position = some stats ∧
      stats.measurements.length = s.measurements.length + 1 ∧
      1 ≤ stats.measurements.length ∧
      stats.measurements.getLast?
        = some (Measurement.new d current_position s.measurements s.input_history
            s.counters.adds s.counters.errors s.counters.corrections) ∧
      (Measurement.new d current_position s.measurements s.input_history
          s.counters.adds s.counters.errors s.counters.corrections).timestamp = d := by
  refine ⟨_, finalize_eq_some s d text_length current_position, ?_, ?_, ?_, rfl⟩
  · simp
  · simp
  · exact List.getLast?_concat _

/-- C4: the finalized statistics have
`missing_characters = max(0, text_length − current_position)` exactly
(saturating subtraction, no underflow) and `input_length = text_length`,
for all natural inputs including `current_position > text_length`. -/
theorem finalize_missing_characters (s : TempStatistics) (d : Duration)
    (text_length current_position : ℕ) :
    ∃ stats, s.finalize d text_length current_position = some stats ∧
      (stats.missing_characters : ℤ)
        = max 0 ((text_length : ℤ) - (current_position : ℤ)) ∧
      stats.missing_characters = text_length - current_position ∧
      stats.input_length = text_length := by
  refine ⟨_, finalize_eq_some s d text_length current_position, ?_, rfl, rfl⟩
  show ((text_length - current_position : ℕ) : ℤ) = _
  omega

/-- C9: the finalized statistics copy the last (forced final) measurement's
metric bundle as headline metrics and carry over the accumulator's
measurement sequence, input history and counters unchanged. -/
theorem finalize_transfers_state (s : TempStatistics) (d : Duration)
    (text_length current_position : ℕ) :
    ∃ m, (s.take_measurement d current_position).measurements.getLast? = some m ∧
      s.finalize d text_length current_position = some
        { wpm := m.wpm
          ipm := m.ipm
          accuracy := m.accuracy
          consistency := m.consistency
          duration := d
          measurements := (s.take_measurement d current_position).measurements
          input_history := s.input_history
          counters := s.counters
          input_length := text_length
          missing_characters := text_length - current_position } := by
  refine ⟨Measurement.new d current_position s.measurements s.input_history
    s.counters.adds s.counters.errors s.counters.corrections, ?_, ?_⟩
  · exact List.getLast?_concat _
  · exact finalize_eq_some s d text_length current_position

/-! ### Measurement construction -/

/-- C5: a measurement's consistency is the consistency function applied to
the wpm values of all previous measurements, in order, followed by the new
measurement's own wpm, and it depends on the previous measurements only
through that ordered wpm sequence. -/
theorem measurement_consistency_from_wpms (ts : Timestamp) (input_len : ℕ)
    (prev : List Measurement) (hist : List Input) (adds errors corrections : ℕ) :
    (Measurement.new ts input_len prev hist adds errors corrections).consistency
      = Consistency.calculate (prev.map Measurement.wpm
          ++ [(Measurement.new ts input_len prev hist adds errors corrections).wpm]) ∧
    ∀ prev₂ : List Measurement,
      prev₂.map Measurement.wpm = prev.map Measurement.wpm →
      (Measurement.new ts input_len prev₂ hist adds errors corrections).consistency
        = (Measurement.new ts input_len prev hist adds errors corrections).consistency := by
  constructor
  · rfl
  · intro prev₂ h
    show Consistency.calculate (prev₂.map Measurement.wpm
          ++ [Wpm.calculate hist.length errors corrections (ts / 60)])
        = Consistency.calculate (prev.map Measurement.wpm
          ++ [Wpm.calculate hist.length errors corrections (ts / 60)])
    rw [h]

/-- Witness for C5 at concrete input, discharging the wpm-projection
hypothesis of the second conjunct. -/
theorem measurement_consistency_from_wpms_witness :
    (Measurement.new 1 0 [] [] 0 0 0).consistency
      = Consistency.calculate ((List.map Measurement.wpm [])
          ++ [(Measurement.new 1 0 [] [] 0 0 0).wpm]) ∧
    (Measurement.new 1 0 [] [] 0 0 0).consistency
      = (Measurement.new 1 0 [] [] 0 0 0).consistency :=
  ⟨(measurement_consistency_from_wpms 1 0 [] [] 0 0 0).1,
   (measurement_consistency_from_wpms 1 0 [] [] 0 0 0).2 [] rfl⟩

/-! ### Coherence of the cached last-measurement timestamp -/

lemma coh_default : Coh TempStatistics.default := by
  constructor
  · intro _; rfl
  · intro t h; simp [TempStatistics.default] at h

lemma coh_update (s : TempStatistics) (char : Char) (result : CharacterResult)
    (il : ℕ) (e : Duration) (cfg : Configuration) (h : Coh s) :
    Coh (s.update char result il e cfg) := by
  simp only [TempStatistics.update]
  split
  · constructor
    · intro hnone
      simp [TempStatistics.take_measurement] at hnone
    · intro t ht
      have hte : e = t := by
        simpa [TempStatistics.take_measurement] using ht
      subst hte
      exact ⟨_, List.getLast?_concat _, rfl⟩
  · exact h

lemma coh_foldl (calls : List UpdateCall) :
    ∀ s : TempStatistics, Coh s → Coh (calls.foldl stepCall s) := by
  induction calls with
  | nil => intro s h; exact h
  | cons c cs ih =>
      intro s h
      exact ih _ (coh_update s c.char c.result c.input_len c.elapsed c.config h)

lemma coh_run (calls : List UpdateCall) : Coh (runUpdates calls) :=
  coh_foldl calls TempStatistics.default coh_default

lemma should_take_iff (s : TempStatistics) (hcoh : Coh s) (ts I : ℚ) :
    s.should_take_measurement ts I = true
      ↔ ((s.measurements = [] ∧ I ≤ ts)
          ∨ ∃ m₀, s.measurements.getLast? = some m₀ ∧ I ≤ ts - m₀.timestamp) := by
  unfold TempStatistics.should_take_measurement
  cases hl : s.last_measurement with
  | none =>
      have hms0 : s.measurements = [] := hcoh.1 hl
      simp [hms0, ge_iff_le]
  | some t =>
      obtain ⟨m₀, hm₀, hts⟩ := hcoh.2 t hl
      have hne : s.measurements ≠ [] := by
        intro hh
        rw [hh] at hm₀
        simp at hm₀
      constructor
      · intro hdec
        refine Or.inr ⟨m₀, hm₀, ?_⟩
        rw [hts]
        exact of_decide_eq_true hdec
      · rintro (⟨hemp, _⟩ | ⟨m₁, hm₁, hI⟩)
        · exact absurd hemp hne
        · rw [hm₀] at hm₁
          obtain rfl : m₀ = m₁ := by injection hm₁
          apply decide_eq_true
          rw [← hts]
          exact hI

lemma update_measurement_iff_of_coh (s : TempStatistics) (hcoh : Coh s)
    (char : Char) (result : CharacterResult) (input_len : ℕ)
    (elapsed : Duration) (config : Configuration) :
    ((∃ m, (s.update char result input_len elapsed config).measurements
        = s.measurements ++ [m])
      ↔ ((s.measurements = [] ∧ config.measurement_interval_seconds ≤ elapsed)
          ∨ ∃ m₀, s.measurements.getLast? = some m₀
              ∧ config.measurement_interval_seconds ≤ elapsed - m₀.timestamp)) ∧
    (¬ ((s.measurements = [] ∧ config.measurement_interval_seconds ≤ elapsed)
          ∨ ∃ m₀, s.measurements.getLast? = some m₀
              ∧ config.measurement_interval_seconds ≤ elapsed - m₀.timestamp) →
      (s.update char result input_len elapsed config).measurements = s.measurements) ∧
    (s.update char result input_len elapsed config).measurements.length
      ≤ s.measurements.length + 1 := by
  have hswap : (s.update_from_result char result elapsed).should_take_measurement
      elapsed config.measurement_interval_seconds
    = s.should_take_measurement elapsed config.measurement_interval_seconds := rfl
  have hb := should_take_iff s hcoh elapsed config.measurement_interval_seconds
  by_cases hc : (s.update_from_result char result elapsed).should_take_measurement
      elapsed config.measurement_interval_seconds = true
  · have hms : (s.update char result input_len elapsed config).measurements
        = s.measurements ++ [Measurement.new elapsed input_len s.measurements
            ((s.update_from_result char result elapsed).input_history)
            ((s.update_from_result char result elapsed).counters.adds)
            ((s.update_from_result char result elapsed).counters.errors)
            ((s.update_from_result char result elapsed).counters.corrections)] := by
      simp only [TempStatistics.update]
      rw [if_pos hc]
      rfl
    have hcond := hb.mp (hswap ▸ hc)
    refine ⟨iff_of_true ⟨_, hms⟩ hcond, fun hn => absurd hcond hn, ?_⟩
    rw [hms]
    simp
  · have hms : (s.update char result input_len elapsed config).measurements
        = s.measurements := by
      simp only [TempStatistics.update]
      rw [if_neg hc]
      rfl
    refine ⟨iff_of_false ?_ ?_, fun _ => hms, ?_⟩
    · rintro ⟨m, hm⟩
      rw [hms] at hm
      have := congrArg List.length hm
      simp at this
    · intro hcond
      exact hc (hswap ▸ hb.mpr hcond)
    · rw [hms]
      omega

/-- C1: a call to `update` on any reachable accumulator state appends a new
measurement if and only if (no measurement has been taken yet and the
event's timestamp is at least the interval) or (a measurement has been taken
and the event's timestamp minus the last measurement's timestamp is at least
the interval), both boundaries inclusive; otherwise the measurement sequence
is unchanged, and at most one measurement is taken per call. -/
theorem update_takes_measurement_iff (calls : List UpdateCall) (char : Char)
    (result : CharacterResult) (input_len : ℕ) (elapsed : Duration)
    (config : Configuration) :
    ((∃ m, ((runUpdates calls).update char result input_len elapsed config).measurements
        = (runUpdates calls).measurements ++ [m])
      ↔ (((runUpdates calls).measurements = []
            ∧ config.measurement_interval_seconds ≤ elapsed)
          ∨ ∃ m₀, (runUpdates calls).measurements.getLast? = some m₀
              ∧ config.measurement_interval_seconds ≤ elapsed - m₀.timestamp)) ∧
    (¬ (((runUpdates calls).measurements = []
            ∧ config.measurement_interval_seconds ≤ elapsed)
          ∨ ∃ m₀, (runUpdates calls).measurements.getLast? = some m₀
              ∧ config.measurement_interval_seconds ≤ elapsed - m₀.timestamp) →
      ((runUpdates calls).update char result input_len elapsed config).measurements
        = (runUpdates calls).measurements) ∧
    ((runUpdates calls).update char result input_len elapsed config).measurements.length
      ≤ (runUpdates calls).measurements.length + 1 :=
  update_measurement_iff_of_coh (runUpdates calls) (coh_run calls)
    char result input_len elapsed config

/-- Witness for C1 at a concrete input: with no measurement yet and elapsed
time 0 below the interval 1, the update leaves the measurement sequence
unchanged; the inner hypothesis of the theorem is discharged concretely. -/
theorem update_takes_measurement_iff_witness :
    ((runUpdates []).update 'a' CharacterResult.Correct 1 0
        ⟨1⟩).measurements = (runUpdates []).measurements :=
  (update_takes_measurement_iff [] 'a' CharacterResult.Correct 1 0 ⟨1⟩).2.1
    (by
      rintro (⟨_, hle⟩ | ⟨m₀, hm₀, _⟩)
      · exact absurd hle (by norm_num)
      · simp [runUpdates, TempStatistics.default] at hm₀)

/-! ### Temporal spacing of measurements -/

lemma spaced_concat (interval : ℚ) (l : List Measurement) (a : Measurement)
    (hsp : Spaced interval l)
    (hlast : ∀ m, l.getLast? = some m → interval ≤ a.timestamp - m.timestamp) :
    Spaced interval (l ++ [a]) := by
  intro i h
  have hlen : (l ++ [a]).length = l.length + 1 := by simp
  by_cases hi : i + 1 < l.length
  · have e1 : (l ++ [a]).get ⟨i + 1, h⟩ = l.get ⟨i + 1, hi⟩ := by
      simp only [List.get_eq_getElem]
      exact List.getElem_append_left hi
    have e0 : (l ++ [a]).get ⟨i, Nat.lt_of_succ_lt h⟩
        = l.get ⟨i, Nat.lt_of_succ_lt hi⟩ := by
      simp only [List.get_eq_getElem]
      exact List.getElem_append_left (Nat.lt_of_succ_lt hi)
    rw [e1, e0]
    exact hsp i hi
  · have hi1 : i + 1 = l.length := by
      rw [hlen] at h
      omega
    have hne : l ≠ [] := by
      intro hl
      rw [hl] at hi1
      simp at hi1
    have e1 : (l ++ [a]).get ⟨i + 1, h⟩ = a := by
      simp only [List.get_eq_getElem]
      exact List.getElem_concat_length l a (i + 1) hi1 _
    have hi0 : i < l.length := by omega
    have e0 : (l ++ [a]).get ⟨i, Nat.lt_of_succ_lt h⟩ = l.getLast hne := by
      simp only [List.get_eq_getElem]
      rw [List.getElem_append_left hi0, List.getLast_eq_getElem]
      congr 1
      omega
    rw [e1, e0]
    exact hlast (l.getLast hne) (List.getLast?_eq_getLast l hne)

lemma spaced_step (s : TempStatistics) (c : UpdateCall) (interval : ℚ)
    (hcfg : c.config.measurement_interval_seconds = interval)
    (hcoh : Coh s) (hsp : Spaced interval s.measurements) :
    Spaced interval (stepCall s c).measurements := by
  have hswap : (s.update_from_result c.char c.result c.elapsed).should_take_measurement
      c.elapsed c.config.measurement_interval_seconds
    = s.should_take_measurement c.elapsed c.config.measurement_interval_seconds := rfl
  unfold stepCall
  simp only [TempStatistics.update]
  split
  case isTrue hc =>
    show Spaced interval (s.measurements ++ [_])
    refine spaced_concat interval s.measurements _ hsp ?_
    intro m hm
    have hcond := (should_take_iff s hcoh c.elapsed
      c.config.measurement_interval_seconds).mp (hswap ▸ hc)
    rcases hcond with ⟨hemp, _⟩ | ⟨m₀, hm₀, hI⟩
    · rw [hemp] at hm
      simp at hm
    · rw [hm₀] at hm
      obtain rfl : m₀ = m := by injection hm
      rw [← hcfg]
      exact hI
  case isFalse => exact hsp

lemma spaced_foldl (calls : List UpdateCall) (interval : ℚ) :
    ∀ s : TempStatistics,
      (∀ c ∈ calls, c.config.measurement_interval_seconds = interval) →
      Coh s → Spaced interval s.measurements →
      Spaced interval (calls.foldl stepCall s).measurements := by
  induction calls with
  | nil => intro s _ _ hsp; exact hsp
  | cons c cs ih =>
      intro s hcfg hcoh hsp
      refine ih (stepCall s c) (fun d hd => hcfg d (List.mem_cons_of_mem c hd)) ?_ ?_
      · exact coh_update s c.char c.result c.input_len c.elapsed c.config hcoh
      · exact spaced_step s c interval (hcfg c (List.mem_cons_self c cs)) hcoh hsp

lemma tsBound_step (s : TempStatistics) (c : UpdateCall) (D : ℚ)
    (he : c.elapsed ≤ D) (h : TsBound D s) : TsBound D (stepCall s c) := by
  unfold stepCall
  simp only [TempStatistics.update]
  split
  · constructor
    · intro m hm
      rw [show ((s.update_from_result c.char c.result c.elapsed).take_measurement
          c.elapsed c.input_len).measurements = s.measurements ++ [_] from rfl] at hm
      rcases List.mem_append.mp hm with hml | hmr
      · exact h.1 m hml
      · have : m = Measurement.new c.elapsed c.input_len s.measurements
            ((s.update_from_result c.char c.result c.elapsed).input_history)
            ((s.update_from_result c.char c.result c.elapsed).counters.adds)
            ((s.update_from_result c.char c.result c.elapsed).counters.errors)
            ((s.update_from_result c.char c.result c.elapsed).counters.corrections) := by
          simpa using hmr
        rw [this]
        exact he
    · intro t ht
      have : c.elapsed = t := by
        simpa [TempStatistics.take_measurement] using ht
      rw [← this]
      exact he
  · exact h

lemma tsBound_default (D : ℚ) : TsBound D TempStatistics.default := by
  constructor
  · intro m hm
    simp [TempStatistics.default] at hm
  · intro t ht
    simp [TempStatistics.default] at ht

lemma tsBound_foldl (calls : List UpdateCall) (D : ℚ) :
    ∀ s : TempStatistics,
      (∀ c ∈ calls, c.elapsed ≤ D) → TsBound D s →
      TsBound D (calls.foldl stepCall s) := by
  induction calls with
  | nil => intro s _ h; exact h
  | cons c cs ih =>
      intro s hd h
      exact ih (stepCall s c) (fun d hdd => hd d (List.mem_cons_of_mem c hdd))
        (tsBound_step s c D (hd c (List.mem_cons_self c cs)) h)

lemma mono_concat (interval : ℚ) (hpos : 0 ≤ interval) (l : List Measurement)
    (a : Measurement) (hsp : Spaced interval l)
    (hbound : ∀ m ∈ l, m.timestamp ≤ a.timestamp) :
    ∀ i, (h : i + 1 < (l ++ [a]).length) →
      ((l ++ [a]).get ⟨i, Nat.lt_of_succ_lt h⟩).timestamp
        ≤ ((l ++ [a]).get ⟨i + 1, h⟩).timestamp := by
  intro i h
  by_cases hi : i + 1 < l.length
  · have e1 : (l ++ [a]).get ⟨i + 1, h⟩ = l.get ⟨i + 1, hi⟩ := by
      simp only [List.get_eq_getElem]
      exact List.getElem_append_left hi
    have e0 : (l ++ [a]).get ⟨i, Nat.lt_of_succ_lt h⟩
        = l.get ⟨i, Nat.lt_of_succ_lt hi⟩ := by
      simp only [List.get_eq_getElem]
      exact List.getElem_append_left (Nat.lt_of_succ_lt hi)
    rw [e1, e0]
    have := hsp i hi
    linarith
  · have hlen : (l ++ [a]).length = l.length + 1 := by simp
    have hi1 : i + 1 = l.length := by
      rw [hlen] at h
      omega
    have hi0 : i < l.length := by omega
    have e1 : (l ++ [a]).get ⟨i + 1, h⟩ = a := by
      simp only [List.get_eq_getElem]
      exact List.getElem_concat_length l a (i + 1) hi1 _
    have e0 : (l ++ [a]).get ⟨i, Nat.lt_of_succ_lt h⟩ = l.get ⟨i, hi0⟩ := by
      simp only [List.get_eq_getElem]
      exact List.getElem_append_left hi0
    rw [e1, e0]
    exact hbound _ (List.get_mem l i hi0)

lemma spaced_concat_left (interval : ℚ) (l : List Measurement) (a : Measurement)
    (hsp : Spaced interval l) :
    ∀ i, (h : i + 2 < (l ++ [a]).length) →
      interval ≤ ((l ++ [a]).get ⟨i + 1, Nat.lt_of_succ_lt h⟩).timestamp
        - ((l ++ [a]).get ⟨i, Nat.lt_of_succ_lt (Nat.lt_of_succ_lt h)⟩).timestamp := by
  intro i h
  have hlen : (l ++ [a]).length = l.length + 1 := by simp
  have hi : i + 1 < l.length := by
    rw [hlen] at h
    omega
  have e1 : (l ++ [a]).get ⟨i + 1, Nat.lt_of_succ_lt h⟩ = l.get ⟨i + 1, hi⟩ := by
    simp only [List.get_eq_getElem]
    exact List.getElem_append_left hi
  have e0 : (l ++ [a]).get ⟨i, Nat.lt_of_succ_lt (Nat.lt_of_succ_lt h)⟩
      = l.get ⟨i, Nat.lt_of_succ_lt hi⟩ := by
    simp only [List.get_eq_getElem]
    exact List.getElem_append_left (Nat.lt_of_succ_lt hi)
  rw [e1, e0]
  exact hsp i hi

/-- C8 (amended): for every session whose update calls all use the same
strictly positive configured interval and supply non-decreasing elapsed
times, and whose finalize duration is at least every supplied elapsed time,
the measurement sequence (including the forced final measurement) has
non-decreasing timestamps, and any two consecutive measurements other than
the forced final one are at least the interval apart. -/
theorem session_measurements_monotone_and_spaced
    (calls : List UpdateCall) (interval : ℚ) (duration : Duration)
    (text_length current_position : ℕ)
    (hcfg : ∀ c ∈ calls, c.config.measurement_interval_seconds = interval)
    (hpos : 0 < interval)
    (hmono : List.Chain' (fun a b => a ≤ b) (calls.map UpdateCall.elapsed))
    (hdur : ∀ c ∈ calls, c.elapsed ≤ duration) :
    ∃ stats, (runUpdates calls).finalize duration text_length current_position
        = some stats ∧
      (∀ i, (h : i + 1 < stats.measurements.length) →
        (stats.measurements.get ⟨i, Nat.lt_of_succ_lt h⟩).timestamp
          ≤ (stats.measurements.get ⟨i + 1, h⟩).timestamp) ∧
      (∀ i, (h : i + 2 < stats.measurements.length) →
        interval ≤ (stats.measurements.get ⟨i + 1, Nat.lt_of_succ_lt h⟩).timestamp
          - (stats.measurements.get
              ⟨i, Nat.lt_of_succ_lt (Nat.lt_of_succ_lt h)⟩).timestamp) := by
  have hcoh := coh_run calls
  have hsp : Spaced interval (runUpdates calls).measurements := by
    refine spaced_foldl calls interval TempStatistics.default hcfg coh_default ?_
    intro i hi
    simp [TempStatistics.default] at hi
  have hbd : TsBound duration (runUpdates calls) :=
    tsBound_foldl calls duration TempStatistics.default hdur (tsBound_default duration)
  refine ⟨_, finalize_eq_some (runUpdates calls) duration text_length
    current_position, ?_, ?_⟩
  · exact mono_concat interval (le_of_lt hpos) _ _ hsp (fun m hm => hbd.1 m hm)
  · exact spaced_concat_left interval _ _ hsp

/-- Witness for C8 at a concrete two-event session with interval 1 and
duration 3, discharging all hypotheses. -/
theorem session_measurements_monotone_and_spaced_witness :
    (∀ c ∈ [(⟨'a', CharacterResult.Correct, 1, 1, ⟨1⟩⟩ : UpdateCall),
            (⟨'b', CharacterResult.Correct, 2, 2, ⟨1⟩⟩ : UpdateCall)],
        c.config.measurement_interval_seconds = 1) ∧
    (0 : ℚ) < 1 ∧
    List.Chain' (fun a b => a ≤ b)
      (List.map UpdateCall.elapsed
        [(⟨'a', CharacterResult.Correct, 1, 1, ⟨1⟩⟩ : UpdateCall),
         (⟨'b', CharacterResult.Correct, 2, 2, ⟨1⟩⟩ : UpdateCall)]) ∧
    (∀ c ∈ [(⟨'a', CharacterResult.Correct, 1, 1, ⟨1⟩⟩ : UpdateCall),
            (⟨'b', CharacterResult.Correct, 2, 2, ⟨1⟩⟩ : UpdateCall)],
        c.elapsed ≤ (3 : ℚ)) ∧
    (∃ stats, (runUpdates
          [(⟨'a', CharacterResult.Correct, 1, 1, ⟨1⟩⟩ : UpdateCall),
           (⟨'b', CharacterResult.Correct, 2, 2, ⟨1⟩⟩ : UpdateCall)]).finalize 3 2 2
        = some stats ∧
      (∀ i, (h : i + 1 < stats.measurements.length) →
        (stats.measurements.get ⟨i, Nat.lt_of_succ_lt h⟩).timestamp
          ≤ (stats.measurements.get ⟨i + 1, h⟩).timestamp) ∧
      (∀ i, (h : i + 2 < stats.measurements.length) →
        (1 : ℚ) ≤ (stats.measurements.get ⟨i + 1, Nat.lt_of_succ_lt h⟩).timestamp
          - (stats.measurements.get
              ⟨i, Nat.lt_of_succ_lt (Nat.lt_of_succ_lt h)⟩).timestamp)) :=
  ⟨by decide, by decide,
   by norm_num [List.chain'_cons, List.chain'_singleton], by decide,
   session_measurements_monotone_and_spaced
     [⟨'a', CharacterResult.Correct, 1, 1, ⟨1⟩⟩,
      ⟨'b', CharacterResult.Correct, 2, 2, ⟨1⟩⟩] 1 3 2 2
     (by decide) (by decide)
     (by norm_num [List.chain'_cons, List.chain'_singleton]) (by decide)⟩

/-- Counterexample to C8 as stated: a session with a single update at
elapsed time 5 (non-decreasing), interval 1, finalized with duration 0,
produces measurement timestamps `[5, 0]`, which are not non-decreasing;
the constraint missing from the claim is that the finalize duration be at
least every supplied elapsed time. -/
theorem session_measurements_nonmonotone_cex :
    (∀ c ∈ [(⟨'a', CharacterResult.Correct, 1, 5, ⟨1⟩⟩ : UpdateCall)],
        c.config.measurement_interval_seconds = 1) ∧
    List.Chain' (fun a b => a ≤ b)
      (List.map UpdateCall.elapsed
        [(⟨'a', CharacterResult.Correct, 1, 5, ⟨1⟩⟩ : UpdateCall)]) ∧
    (0 : ℚ) < 1 ∧
    ∃ stats,
      (runUpdates [(⟨'a', CharacterResult.Correct, 1, 5, ⟨1⟩⟩ : UpdateCall)]).finalize
          0 1 1 = some stats ∧
      stats.measurements.map Measurement.timestamp = [5, 0] ∧
      ∃ (h : 0 + 1 < stats.measurements.length),
        ¬ ((stats.measurements.get ⟨0, Nat.lt_of_succ_lt h⟩).timestamp
            ≤ (stats.measurements.get ⟨0 + 1, h⟩).timestamp) := by
  refine ⟨by decide, by norm_num [List.chain'_singleton], by decide, _,
    finalize_eq_some (runUpdates [(⟨'a', CharacterResult.Correct, 1, 5, ⟨1⟩⟩ :
      UpdateCall)]) 0 1 1, by decide, by decide, by decide⟩

end Gladius
